import Mathlib

/-!
Shallow embedding of the bitset core of the ai-utils repository
(src/BitSet.h): the bit-index type with its forward/backward bit-scan
algorithms, and the BitSet wrapper with its query, mutation and
iteration operations.

A bitset of width N is modelled as a natural number m with m < 2 ^ N
(the value of the underlying unsigned integer T, N = 8 * sizeof(T)).
Bit positions (the int8_t field m_index of utils::bitset::Index) are
modelled as integers; the int8_t conversion is modelled explicitly
(int8_of) at the places where a stored value can reach 128 (the
index_end constant, lssbi of a zero mask).  Operations whose C++
semantics depend on integral promotion, or are undefined, are modelled
as such: the left shift by N - position in prev_bit_in is undefined
(Option-valued) when the shift amount equals a width of at least 32
bits, and the complement in all() is taken on the promoted int for the
8- and 16-bit widths.

The repository's bit-scan primitives live in headers (ctz.h, log2.h,
popcount.h, is_power_of_two.h) that are not part of the sources at
hand; they are modelled from the specification's description of them
and marked as such.
-/

namespace utils

/-- Modelled from the spec: count-trailing-zeros, "the bit offset of the
lowest set bit of a nonzero word" (ctz.h is not among the sources).
Fuel-based so that it is structurally recursive. -/
def ctzF : Nat → Nat → Nat
  | 0, _ => 0
  | fuel+1, m => if m % 2 = 1 ∨ m = 0 then 0 else ctzF fuel (m / 2) + 1

/-- Modelled from the spec: ctz of a word, with enough fuel. -/
def ctz (m : Nat) : Nat := ctzF m m

/-- Modelled from the spec: population count, "the number of bits set
to 1" (popcount.h is not among the sources). -/
def popcountF : Nat → Nat → Nat
  | 0, _ => 0
  | fuel+1, m => if m = 0 then 0 else m % 2 + popcountF fuel (m / 2)

/-- Modelled from the spec: population count of a word. -/
def popcount (m : Nat) : Nat := popcountF m m

/-- Modelled from the spec: floor-log2 of a nonzero word (log2.h is not
among the sources). -/
def log2F : Nat → Nat → Nat
  | 0, _ => 0
  | fuel+1, m => if m ≤ 1 then 0 else log2F fuel (m / 2) + 1

/-- Modelled from the spec: floor-log2 of a nonzero word. -/
def floor_log2 (m : Nat) : Nat := log2F m m

/-- Modelled from the spec: the utils log2 used by mssbi.  The spec
leaves log2(0) to the callers, but BitSet.h documents that mssbi of a
zero BitSet returns index_pre_begin (-1), so the repository's log2
returns -1 on 0. -/
def log2 (m : Nat) : Int := if m = 0 then -1 else floor_log2 m

/-- Modelled from the spec: count-leading-zeros of a nonzero word of
width N: the number of zero bits above the highest set bit. -/
def clz (N m : Nat) : Nat := N - 1 - floor_log2 m

/-- Modelled from the spec: is-power-of-two, "implemented via the
power-of-two test: mask != 0 && (mask & (mask-1)) == 0"
(is_power_of_two.h is not among the sources). -/
def is_power_of_two (m : Nat) : Bool := m != 0 && (m &&& (m - 1)) == 0

/-! ### utils::bitset::Index (src/BitSet.h lines 74-221)

The int8_t field m_index is modelled as an Int.  The IndexPOD
constants and the scan algorithms next_bit_in / prev_bit_in follow. -/

/-- Conversion of an integer to int8_t (modular, wrapping into
[-128, 127]); models the int8_t storage of IndexPOD::m_index. -/
def int8_of (n : Int) : Int := (n + 128) % 256 - 128

/-- constexpr IndexPOD index_pre_begin = { -1 }; -/
def index_pre_begin : Int := -1

/-- constexpr IndexPOD index_begin = { 0 }; -/
def index_begin : Int := 0

/-- template(T) constexpr IndexPOD index_end = { 8 * sizeof(T) };
the initializer 8 * sizeof(T) = N is stored in the int8_t m_index. -/
def index_end (N : Nat) : Int := int8_of N

/-- Index::next_bit_in(T mask) (src/BitSet.h lines 162-179):
increment m_index; if it did not reach N, shift the mask right by the
new index; a zero result sets m_index to N, otherwise ctz of the
shifted mask is added. -/
def next_bit_in (N m : Nat) (p : Int) : Int :=
  if p + 1 ≠ (N : Int) then
    if m >>> (p + 1).toNat = 0 then (N : Int)
    else (p + 1) + (ctz (m >>> (p + 1).toNat) : Int)
  else p + 1

/-- The compound left shift mask <<= s on the width-N unsigned type,
with C++ semantics: for the 8- and 16-bit widths the operand is
promoted to the 32-bit int, so any amount below 32 is defined and the
result truncates back to the width on assignment; for wider widths the
shift is defined only for amounts strictly below the width. -/
def shl_width (N m s : Nat) : Option Nat :=
  if (N ≤ 16 ∧ s < 32) ∨ s < N then Option.some ((m <<< s) % 2 ^ N) else Option.none

/-- Index::prev_bit_in(T mask) (src/BitSet.h lines 199-213):
shift the mask left by N - m_index (undefined when that amount equals
a width of at least 32 bits); a zero result sets m_index to
index_pre_begin, otherwise clz of the shifted mask plus one is
subtracted. -/
def prev_bit_in (N m : Nat) (p : Int) : Option Int :=
  match shl_width N m ((N : Int) - p).toNat with
  | Option.none => Option.none
  | Option.some mask =>
      if mask = 0 then Option.some index_pre_begin
      else Option.some (p - ((clz N mask : Int) + 1))

/-- Index::may_call_prev_bit_in (src/BitSet.h lines 219-220):
true iff m_index > 0. -/
def may_call_prev_bit_in (p : Int) : Bool := p > 0

/-! ### utils::BitSet (src/BitSet.h lines 315-537)

Every member below is a pure function of the width N and the mask m
(the member m_bitmask), with m < 2 ^ N. -/

/-- BitSet::index2mask (line 325): static_cast(T)(1) << i, a value of
the width-N unsigned type. -/
def index2mask (N : Nat) (i : Int) : Nat := (1 <<< i.toNat) % 2 ^ N

/-- BitSet::mask2index (line 327): ctz(mask). -/
def mask2index (m : Nat) : Int := ctz m

/-- BitSet::test(Index) (line 449): m_bitmask & index2mask(i1). -/
def test (N m : Nat) (i : Int) : Bool := (m &&& index2mask N i) != 0

/-- BitSet::set(Index) (line 386): m_bitmask |= index2mask(i1). -/
def set_bit (N m : Nat) (i : Int) : Nat := m ||| index2mask N i

/-- BitSet::reset(Index) (line 374): m_bitmask &= ~index2mask(i1);
complement on the width-N type is xor with 2 ^ N - 1. -/
def reset_bit (N m : Nat) (i : Int) : Nat := m &&& ((2 ^ N - 1) ^^^ index2mask N i)

/-- BitSet::flip(Index) (line 398): m_bitmask ^= index2mask(i1). -/
def flip_bit (N m : Nat) (i : Int) : Nat := m ^^^ index2mask N i

/-- BitSet::all (line 420): !~m_bitmask.  For the 8- and 16-bit widths
the operand of ~ undergoes integral promotion to the 32-bit int, so
the complement computed is -(m + 1); for the wider widths ~ acts on
the width-N type itself, the xor-with-all-ones complement. -/
def all (N m : Nat) : Bool :=
  if N ≤ 16 then -((m : Int) + 1) == 0 else ((2 ^ N - 1) ^^^ m) == 0

/-- BitSet::any (line 421): m_bitmask as a boolean. -/
def any (m : Nat) : Bool := m != 0

/-- BitSet::none (line 422): !m_bitmask. -/
def none (m : Nat) : Bool := m == 0

/-- BitSet::is_single_bit (line 423): is_power_of_two(m_bitmask). -/
def is_single_bit (m : Nat) : Bool := is_power_of_two m

/-- BitSet::count (line 429): popcount of m_bitmask. -/
def count (m : Nat) : Nat := popcount m

/-- BitSet::lssb (line 432): m_bitmask & -m_bitmask; unary minus on
the width-N unsigned type is (2 ^ N - m) % 2 ^ N. -/
def lssb (N m : Nat) : Nat := m &&& ((2 ^ N - m) % 2 ^ N)

/-- BitSet::lssbi (line 439): ctz(m_bitmask) if the mask is nonzero,
else size() = N, the result passed through static_cast(int8_t). -/
def lssbi (N m : Nat) : Int :=
  int8_of (if m ≠ 0 then (ctz m : Int) else (N : Int))

/-- BitSet::mssbi (line 443): log2(m_bitmask), which is -1 on a zero
mask (documented to return index_pre_begin then). -/
def mssbi (m : Nat) : Int := log2 m

/-- BitSet::begin (line 535): a const_iterator holding a copy of
m_bitmask. -/
def begin (m : Nat) : Nat := m

/-! ### utils::bitset::const_iterator (src/BitSet.h lines 279-311)

The iterator state is its residual mask m_mask, a Nat. -/

/-- const_iterator::operator* (lines 556-560): m_mask & -m_mask, the
least significant set bit of the residual mask. -/
def iter_deref (N m : Nat) : Nat := m &&& ((2 ^ N - m) % 2 ^ N)

/-- const_iterator::operator++ (lines 303-308): m_mask &= m_mask - 1,
removing the least significant set bit. -/
def iter_succ (m : Nat) : Nat := m &&& (m - 1)

/-- const_iterator::operator== (line 298): mask equality. -/
def iter_eq (a b : Nat) : Bool := a == b

/-- const_iterator::const_iterator() (line 288): the end iterator,
residual mask 0. -/
def iter_end : Nat := 0

/-- The list of values yielded by iterating from a residual mask m to
the end iterator: dereference, advance, repeat while the mask is
nonzero.  Fuel-based (iter_succ m < m for nonzero m, so fuel m
suffices). -/
def iterListF (N : Nat) : Nat → Nat → List Nat
  | 0, _ => []
  | fuel+1, m => if m = 0 then [] else iter_deref N m :: iterListF N fuel (iter_succ m)

/-- The values yielded by iterating BitSet(m) from begin() to end(). -/
def iterList (N m : Nat) : List Nat := iterListF N (begin m) (begin m)

/-- BitSet::to_string (lines 564-574): N characters, written from bit
N-1 (leftmost) down to bit 0, each the one character if the bit is set
and the zero character otherwise.  The auxiliary function produces the
characters of bits b-1 .. 0. -/
def to_string_aux (N m : Nat) (zero one : Char) : Nat → List Char
  | 0 => []
  | b+1 => (if test N m (b : Int) then one else zero) :: to_string_aux N m zero one b

/-- BitSet::to_string (lines 564-574). -/
def to_string (N m : Nat) (zero one : Char) : List Char := to_string_aux N m zero one N

/-! ### Properties of the count-trailing-zeros model -/

lemma ctzF_spec : ∀ fuel m, m ≠ 0 → m ≤ fuel →
    Nat.testBit m (ctzF fuel m) = true ∧ ∀ j, j < ctzF fuel m → Nat.testBit m j = false := by
  intro fuel
  induction fuel with
  | zero => intro m h0 hle; omega
  | succ f ih =>
    intro m h0 hle
    by_cases hodd : m % 2 = 1
    · have hc : ctzF (f + 1) m = 0 := by simp [ctzF, hodd]
      rw [hc]
      refine ⟨by simp [Nat.testBit_zero, hodd], fun j hj => absurd hj (by omega)⟩
    · have hm2 : m / 2 ≠ 0 := by omega
      have hle2 : m / 2 ≤ f := by omega
      obtain ⟨h1, h2⟩ := ih (m / 2) hm2 hle2
      have hc : ctzF (f + 1) m = ctzF f (m / 2) + 1 := by
        simp [ctzF, hodd, h0]
      rw [hc]
      constructor
      · rw [Nat.testBit_add_one]; exact h1
      · intro j hj
        match j with
        | 0 => simp [Nat.testBit_zero]; omega
        | j + 1 => rw [Nat.testBit_add_one]; exact h2 j (by omega)

lemma ctz_spec (m : Nat) (h : m ≠ 0) :
    Nat.testBit m (ctz m) = true ∧ ∀ j, j < ctz m → Nat.testBit m j = false :=
  ctzF_spec m m h (Nat.le_refl m)

lemma ctz_unique {m c : Nat} (h : m ≠ 0) (h1 : Nat.testBit m c = true)
    (h2 : ∀ j, j < c → Nat.testBit m j = false) : ctz m = c := by
  obtain ⟨g1, g2⟩ := ctz_spec m h
  rcases Nat.lt_trichotomy (ctz m) c with hlt | he | hgt
  · have hx := h2 _ hlt; rw [g1] at hx; exact absurd hx (by simp)
  · exact he
  · have hx := g2 _ hgt; rw [h1] at hx; exact absurd hx (by simp)

lemma ctz_two_pow (k : Nat) : ctz (2 ^ k) = k :=
  ctz_unique (Nat.two_pow_pos k).ne' Nat.testBit_two_pow_self
    (fun j hj => Nat.testBit_two_pow_of_ne (by omega))

lemma ctz_lt_of_lt {m N : Nat} (h0 : m ≠ 0) (hm : m < 2 ^ N) : ctz m < N := by
  have h1 := Nat.testBit_implies_ge (ctz_spec m h0).1
  by_contra hge
  push_neg at hge
  have h2 : (2 : Nat) ^ N ≤ 2 ^ ctz m := Nat.pow_le_pow_right (by omega) hge
  omega

lemma mod_two_pow_ctz {m : Nat} (h : m ≠ 0) : m % 2 ^ (ctz m + 1) = 2 ^ ctz m := by
  apply Nat.eq_of_testBit_eq
  intro j
  rw [Nat.testBit_mod_two_pow, Nat.testBit_two_pow]
  obtain ⟨g1, g2⟩ := ctz_spec m h
  by_cases hj : j < ctz m
  · rw [g2 j hj]; simp; omega
  · by_cases hej : j = ctz m
    · subst hej; simp [g1]
    · have hx : ¬(j < ctz m + 1) := by omega
      simp [hx]; omega

lemma ctz_decomp {m : Nat} (h : m ≠ 0) :
    m = 2 ^ (ctz m + 1) * (m / 2 ^ (ctz m + 1)) + 2 ^ ctz m := by
  conv_lhs => rw [← Nat.div_add_mod m (2 ^ (ctz m + 1))]
  rw [mod_two_pow_ctz h]

lemma testBit_high {m : Nat} (h : m ≠ 0) {j : Nat} (hj : ctz m < j) :
    Nat.testBit m j = Nat.testBit (m / 2 ^ (ctz m + 1)) (j - (ctz m + 1)) := by
  have hb : (2 : Nat) ^ ctz m < 2 ^ (ctz m + 1) :=
    Nat.pow_lt_pow_right (by omega) (by omega)
  conv_lhs => rw [ctz_decomp h]
  rw [Nat.testBit_mul_pow_two_add _ hb]
  have hx : ¬(j < ctz m + 1) := by omega
  rw [if_neg hx]

lemma testBit_pred {m : Nat} (h : m ≠ 0) (i : Nat) :
    Nat.testBit (m - 1) i =
      (if i < ctz m then true else if i = ctz m then false else Nat.testBit m i) := by
  have hp : (0 : Nat) < 2 ^ ctz m := Nat.two_pow_pos (ctz m)
  have hb : (2 : Nat) ^ ctz m - 1 < 2 ^ (ctz m + 1) := by
    have : (2 : Nat) ^ ctz m < 2 ^ (ctz m + 1) := Nat.pow_lt_pow_right (by omega) (by omega)
    omega
  have hsub : m - 1 = 2 ^ (ctz m + 1) * (m / 2 ^ (ctz m + 1)) + (2 ^ ctz m - 1) := by
    have hd := ctz_decomp h
    omega
  rw [hsub, Nat.testBit_mul_pow_two_add _ hb]
  by_cases h1 : i < ctz m
  · rw [if_pos (by omega), if_pos h1, Nat.testBit_two_pow_sub_one]
    simp; omega
  · by_cases h2 : i = ctz m
    · subst h2
      rw [if_pos (by omega), if_neg h1, if_pos rfl, Nat.testBit_two_pow_sub_one]
      simp
    · rw [if_neg (by omega), if_neg h1, if_neg h2, testBit_high h (by omega)]

lemma testBit_iter_succ {m : Nat} (h : m ≠ 0) (j : Nat) :
    Nat.testBit (iter_succ m) j = (decide (ctz m < j) && Nat.testBit m j) := by
  unfold iter_succ
  rw [Nat.testBit_and, testBit_pred h]
  obtain ⟨g1, g2⟩ := ctz_spec m h
  by_cases h1 : j < ctz m
  · rw [g2 j h1]; simp
  · by_cases h2 : j = ctz m
    · subst h2; simp
    · rw [if_neg h1, if_neg h2]
      have hx : ctz m < j := by omega
      simp [hx, Bool.and_self]

lemma iter_succ_eq_sub {m : Nat} (h : m ≠ 0) : iter_succ m = m - 2 ^ ctz m := by
  have hd := ctz_decomp h
  have hsub : m - 2 ^ ctz m = 2 ^ (ctz m + 1) * (m / 2 ^ (ctz m + 1)) := by omega
  apply Nat.eq_of_testBit_eq
  intro j
  rw [testBit_iter_succ h, hsub, Nat.testBit_mul_pow_two]
  by_cases h1 : ctz m < j
  · have hge : j ≥ ctz m + 1 := by omega
    rw [testBit_high h h1]
    simp [h1, hge]
  · have hx : ¬(j ≥ ctz m + 1) := by omega
    simp [h1, hx]

lemma eq_two_pow_of_iter_succ_zero {m : Nat} (h : m ≠ 0) (h2 : iter_succ m = 0) :
    m = 2 ^ ctz m := by
  obtain ⟨g1, g2⟩ := ctz_spec m h
  apply Nat.eq_of_testBit_eq
  intro j
  rcases Nat.lt_trichotomy j (ctz m) with hlt | he | hgt
  · rw [g2 j hlt, Nat.testBit_two_pow_of_ne (by omega)]
  · subst he; rw [g1, Nat.testBit_two_pow_self]
  · have hx := testBit_iter_succ h j
    rw [h2, Nat.zero_testBit] at hx
    have hfalse : Nat.testBit m j = false := by
      by_contra hb
      rw [Bool.not_eq_false] at hb
      rw [hb] at hx
      simp [hgt] at hx
    rw [hfalse, Nat.testBit_two_pow_of_ne (by omega)]

/-! ### Properties of the population-count model -/

lemma popcountF_zero : ∀ fuel, popcountF fuel 0 = 0 := by
  intro f; cases f <;> simp [popcountF]

lemma popcountF_congr : ∀ fuel fuel' m, m ≤ fuel → m ≤ fuel' →
    popcountF fuel m = popcountF fuel' m := by
  intro fuel
  induction fuel with
  | zero =>
    intro f' m h _
    have hm : m = 0 := by omega
    subst hm
    rw [popcountF_zero, popcountF_zero]
  | succ f ih =>
    intro f' m h h'
    by_cases h0 : m = 0
    · subst h0; rw [popcountF_zero, popcountF_zero]
    · cases f' with
      | zero => omega
      | succ f'' =>
        simp only [popcountF, if_neg h0]
        congr 1
        exact ih f'' (m / 2) (by omega) (by omega)

lemma popcount_zero : popcount 0 = 0 := rfl

lemma popcount_rec {m : Nat} (h : m ≠ 0) : popcount m = m % 2 + popcount (m / 2) := by
  obtain ⟨k, rfl⟩ : ∃ k, m = k + 1 := ⟨m - 1, by omega⟩
  show popcountF (k + 1) (k + 1) = _
  simp only [popcountF, if_neg h]
  congr 1
  exact popcountF_congr k ((k + 1) / 2) ((k + 1) / 2) (by omega) (by omega)

lemma popcount_eq_zero : ∀ m, popcount m = 0 ↔ m = 0 := by
  intro m
  induction m using Nat.strong_induction_on with
  | _ m ih =>
    constructor
    · intro h
      by_contra h0
      rw [popcount_rec h0] at h
      by_cases hodd : m % 2 = 1
      · omega
      · have h2 : m / 2 ≠ 0 := by omega
        have h3 := (ih (m / 2) (by omega)).not.mpr h2
        omega
    · intro h; subst h; rfl

lemma popcount_two_pow_mul_add : ∀ b a r, r < 2 ^ b →
    popcount (2 ^ b * a + r) = popcount a + popcount r := by
  intro b
  induction b with
  | zero =>
    intro a r hr
    have hr0 : r = 0 := by omega
    subst hr0
    simp [popcount_zero]
  | succ f ih =>
    intro a r hr
    have hpow : (2 : Nat) ^ (f + 1) = 2 * 2 ^ f := by ring
    by_cases hz : 2 ^ (f + 1) * a + r = 0
    · have hp := Nat.two_pow_pos (f + 1)
      have ha : a = 0 := by
        rcases Nat.mul_eq_zero.mp (by omega : 2 ^ (f + 1) * a = 0) with h1 | h1
        · omega
        · exact h1
      have hr0 : r = 0 := by omega
      subst ha; subst hr0
      simp [popcount_zero]
    · rw [hpow, Nat.mul_assoc] at hz ⊢
      rw [popcount_rec hz]
      have h2 : (2 * (2 ^ f * a) + r) % 2 = r % 2 := by omega
      have h3 : (2 * (2 ^ f * a) + r) / 2 = 2 ^ f * a + r / 2 := by omega
      rw [h2, h3, ih a (r / 2) (by omega)]
      by_cases hr0 : r = 0
      · subst hr0; simp [popcount_zero]
      · rw [popcount_rec hr0]; omega

lemma popcount_two_pow (k : Nat) : popcount (2 ^ k) = 1 := by
  have h := popcount_two_pow_mul_add k 1 0 (Nat.two_pow_pos k)
  simpa [popcount_zero] using h

lemma popcount_iter_succ {m : Nat} (h : m ≠ 0) : popcount (iter_succ m) + 1 = popcount m := by
  have hd := ctz_decomp h
  have hp : (0 : Nat) < 2 ^ ctz m := Nat.two_pow_pos (ctz m)
  have hb : (2 : Nat) ^ ctz m < 2 ^ (ctz m + 1) := Nat.pow_lt_pow_right (by omega) (by omega)
  rw [iter_succ_eq_sub h]
  have hsub : m - 2 ^ ctz m = 2 ^ (ctz m + 1) * (m / 2 ^ (ctz m + 1)) + 0 := by omega
  rw [hsub, popcount_two_pow_mul_add (ctz m + 1) _ 0 (Nat.two_pow_pos _), popcount_zero]
  conv_rhs => rw [hd]
  rw [popcount_two_pow_mul_add (ctz m + 1) _ (2 ^ ctz m) hb, popcount_two_pow]

lemma popcount_le_of_lt : ∀ N m, m < 2 ^ N → popcount m ≤ N := by
  intro N
  induction N with
  | zero =>
    intro m hm
    have hm0 : m = 0 := by omega
    subst hm0
    rw [popcount_zero]
  | succ f ih =>
    intro m hm
    by_cases h0 : m = 0
    · subst h0; simp [popcount_zero]
    · rw [popcount_rec h0]
      have hpow : (2 : Nat) ^ (f + 1) = 2 * 2 ^ f := by ring
      have := ih (m / 2) (by omega)
      omega

lemma popcount_two_pow_sub_one : ∀ N, popcount (2 ^ N - 1) = N := by
  intro N
  induction N with
  | zero => simp [popcount_zero]
  | succ f ih =>
    have hpow : (2 : Nat) ^ (f + 1) = 2 * 2 ^ f := by ring
    have hp := Nat.two_pow_pos f
    have h0 : (2 : Nat) ^ (f + 1) - 1 ≠ 0 := by omega
    rw [popcount_rec h0]
    have h1 : ((2 : Nat) ^ (f + 1) - 1) % 2 = 1 := by omega
    have h2 : ((2 : Nat) ^ (f + 1) - 1) / 2 = 2 ^ f - 1 := by omega
    rw [h1, h2, ih]
    omega

lemma popcount_eq_iff_all {N m : Nat} (hm : m < 2 ^ N) : popcount m = N ↔ m = 2 ^ N - 1 := by
  constructor
  · intro h
    induction N generalizing m with
    | zero => omega
    | succ f ih =>
      have hpow : (2 : Nat) ^ (f + 1) = 2 * 2 ^ f := by ring
      have h0 : m ≠ 0 := by
        intro hz; subst hz; rw [popcount_zero] at h; omega
      rw [popcount_rec h0] at h
      have hle := popcount_le_of_lt f (m / 2) (by omega)
      have hodd : m % 2 = 1 := by omega
      have heq : popcount (m / 2) = f := by omega
      have := ih (by omega : m / 2 < 2 ^ f) heq
      omega
  · intro h; subst h; exact popcount_two_pow_sub_one N

lemma popcount_eq_one (m : Nat) : popcount m = 1 ↔ ∃ k, m = 2 ^ k := by
  constructor
  · intro h
    have h0 : m ≠ 0 := by
      intro hz; subst hz; rw [popcount_zero] at h; omega
    have h1 := popcount_iter_succ h0
    have h2 : popcount (iter_succ m) = 0 := by omega
    have h3 := (popcount_eq_zero (iter_succ m)).mp h2
    exact ⟨ctz m, eq_two_pow_of_iter_succ_zero h0 h3⟩
  · intro ⟨k, hk⟩; subst hk; exact popcount_two_pow k

/-! ### Properties of the floor-log2 model -/

lemma log2F_spec : ∀ fuel m, m ≠ 0 → m ≤ fuel →
    2 ^ log2F fuel m ≤ m ∧ m < 2 ^ (log2F fuel m + 1) := by
  intro fuel
  induction fuel with
  | zero => intro m h hle; omega
  | succ f ih =>
    intro m h hle
    by_cases h1 : m ≤ 1
    · have hm1 : m = 1 := by omega
      subst hm1
      simp [log2F]
    · have h2 : m / 2 ≠ 0 := by omega
      have h3 : m / 2 ≤ f := by omega
      obtain ⟨g1, g2⟩ := ih (m / 2) h2 h3
      have hL : log2F (f + 1) m = log2F f (m / 2) + 1 := by simp [log2F, h1]
      rw [hL]
      have hpow : (2 : Nat) ^ (log2F f (m / 2) + 1) = 2 * 2 ^ log2F f (m / 2) := by ring
      have hpow2 : (2 : Nat) ^ (log2F f (m / 2) + 1 + 1) = 2 * 2 ^ (log2F f (m / 2) + 1) := by
        ring
      omega

lemma floor_log2_spec {m : Nat} (h : m ≠ 0) :
    2 ^ floor_log2 m ≤ m ∧ m < 2 ^ (floor_log2 m + 1) :=
  log2F_spec m m h (Nat.le_refl m)

lemma floor_log2_unique {m c : Nat} (h : m ≠ 0) (hc1 : 2 ^ c ≤ m) (hc2 : m < 2 ^ (c + 1)) :
    floor_log2 m = c := by
  obtain ⟨g1, g2⟩ := floor_log2_spec h
  rcases Nat.lt_trichotomy (floor_log2 m) c with hlt | he | hgt
  · have : (2 : Nat) ^ (floor_log2 m + 1) ≤ 2 ^ c := Nat.pow_le_pow_right (by omega) (by omega)
    omega
  · exact he
  · have : (2 : Nat) ^ (c + 1) ≤ 2 ^ floor_log2 m := Nat.pow_le_pow_right (by omega) (by omega)
    omega

lemma floor_log2_testBit {m : Nat} (h : m ≠ 0) : Nat.testBit m (floor_log2 m) = true := by
  obtain ⟨g1, g2⟩ := floor_log2_spec h
  rw [Nat.testBit_to_div_mod]
  have hpow : (2 : Nat) ^ (floor_log2 m + 1) = 2 * 2 ^ floor_log2 m := by ring
  have hdiv : m / 2 ^ floor_log2 m = 1 :=
    Nat.div_eq_of_lt_le (by omega) (by omega)
  rw [hdiv]
  decide

lemma testBit_false_of_log2_lt {m j : Nat} (h : m ≠ 0) (hj : floor_log2 m < j) :
    Nat.testBit m j = false := by
  obtain ⟨g1, g2⟩ := floor_log2_spec h
  exact Nat.testBit_lt_two_pow
    (Nat.lt_of_lt_of_le g2 (Nat.pow_le_pow_right (by omega) (by omega)))

lemma floor_log2_lt {m N : Nat} (h : m ≠ 0) (hm : m < 2 ^ N) : floor_log2 m < N := by
  obtain ⟨g1, g2⟩ := floor_log2_spec h
  by_contra hge
  push_neg at hge
  have : (2 : Nat) ^ N ≤ 2 ^ floor_log2 m := Nat.pow_le_pow_right (by omega) hge
  omega

/-! ### Basic facts about test and index2mask -/

lemma land_two_pow (m k : Nat) : m &&& 2 ^ k = if Nat.testBit m k then 2 ^ k else 0 := by
  apply Nat.eq_of_testBit_eq
  intro j
  rw [Nat.testBit_and]
  by_cases hjk : k = j
  · subst hjk
    cases h : Nat.testBit m k <;> simp [h, Nat.testBit_two_pow_self]
  · rw [Nat.testBit_two_pow_of_ne hjk]
    cases h : Nat.testBit m k <;> simp [Nat.zero_testBit, Nat.testBit_two_pow_of_ne hjk]

lemma index2mask_eq {N : Nat} {i : Int} (h0 : 0 ≤ i) (hN : i < (N : Int)) :
    index2mask N i = 2 ^ i.toNat := by
  unfold index2mask
  rw [Nat.shiftLeft_eq, one_mul]
  exact Nat.mod_eq_of_lt (Nat.pow_lt_pow_right (by omega) (by omega))

lemma test_eq_testBit {N m : Nat} {i : Int} (h0 : 0 ≤ i) (hN : i < (N : Int)) :
    test N m i = Nat.testBit m i.toNat := by
  unfold test
  rw [index2mask_eq h0 hN, land_two_pow]
  cases h : Nat.testBit m i.toNat <;>
    simp [h, Nat.pos_iff_ne_zero.mp (Nat.two_pow_pos i.toNat)]

/-- The classic identity: m & -m (on the width-N unsigned type) is the
least significant set bit of a nonzero m. -/
lemma lssb_eq_two_pow_ctz {N m : Nat} (h : m ≠ 0) (hm : m < 2 ^ N) :
    lssb N m = 2 ^ ctz m := by
  unfold lssb
  have hp : (0 : Nat) < 2 ^ N := Nat.two_pow_pos N
  have hmod : (2 ^ N - m) % 2 ^ N = 2 ^ N - m := Nat.mod_eq_of_lt (by omega)
  have hm1 : m - 1 < 2 ^ N := by omega
  have hrw : 2 ^ N - m = 2 ^ N - ((m - 1) + 1) := by omega
  rw [hmod, hrw]
  apply Nat.eq_of_testBit_eq
  intro j
  rw [Nat.testBit_and, Nat.testBit_two_pow_sub_succ hm1, testBit_pred h]
  obtain ⟨g1, g2⟩ := ctz_spec m h
  have hcN : ctz m < N := ctz_lt_of_lt h hm
  by_cases h1 : j < ctz m
  · rw [g2 j h1, Nat.testBit_two_pow_of_ne (by omega)]
    simp
  · by_cases h2 : j = ctz m
    · subst h2
      rw [g1, Nat.testBit_two_pow_self]
      simp [hcN]
    · rw [if_neg h1, if_neg h2]
      by_cases hjN : j < N
      · cases hb : Nat.testBit m j <;>
          simp [hb, hjN, Nat.testBit_two_pow_of_ne (show ctz m ≠ j by omega)]
      · have hbit : Nat.testBit m j = false :=
          Nat.testBit_lt_two_pow
            (lt_of_lt_of_le hm (Nat.pow_le_pow_right (by omega) (by omega)))
        rw [hbit, Nat.testBit_two_pow_of_ne (by omega)]
        simp

/-! ### Claim theorems -/

/-- Claim C5: for every mask m of width N and every index i in [0, N),
BitSet(m).test(BitIndex(i)) returns true exactly when ((m >> i) & 1) == 1. -/
theorem test_spec (N m : Nat) (i : Int) (_hm : m < 2 ^ N) (h0 : 0 ≤ i) (hN : i < (N : Int)) :
    test N m i = true ↔ (m >>> i.toNat) &&& 1 = 1 := by
  rw [test_eq_testBit h0 hN, Nat.testBit_to_div_mod, Nat.and_one_is_mod,
    Nat.shiftRight_eq_div_pow]
  simp

/-- Witness for C5: the claim instantiated at width 8, mask 0x46, index 1. -/
theorem test_spec_witness :
    ((0x46 : Nat) < 2 ^ 8 ∧ (0 : Int) ≤ 1 ∧ (1 : Int) < ((8 : Nat) : Int)) ∧
      (test 8 0x46 1 = true ↔ ((0x46 : Nat) >>> (1 : Int).toNat) &&& 1 = 1) :=
  ⟨⟨by decide, by decide, by decide⟩, test_spec 8 0x46 1 (by decide) (by decide) (by decide)⟩

/-- Claim C10: for every BitSet state and every valid index i in [0, N),
set(i) makes bit i set, reset(i) makes bit i clear, flip(i) inverts
bit i, and in all three cases every other valid bit position j keeps
exactly the value it had before the call. -/
theorem mutators_frame (N m : Nat) (i j : Int) (_hm : m < 2 ^ N)
    (hi0 : 0 ≤ i) (hiN : i < (N : Int)) (hj0 : 0 ≤ j) (hjN : j < (N : Int)) (hne : j ≠ i) :
    test N (set_bit N m i) i = true ∧
    test N (reset_bit N m i) i = false ∧
    test N (flip_bit N m i) i = !test N m i ∧
    test N (set_bit N m i) j = test N m j ∧
    test N (reset_bit N m i) j = test N m j ∧
    test N (flip_bit N m i) j = test N m j := by
  have hik : i.toNat < N := by omega
  have hjk : j.toNat < N := by omega
  have hkne : j.toNat ≠ i.toNat := by omega
  simp only [set_bit, reset_bit, flip_bit, index2mask_eq hi0 hiN,
    test_eq_testBit hi0 hiN, test_eq_testBit hj0 hjN]
  rw [Nat.testBit_or, Nat.testBit_or, Nat.testBit_and, Nat.testBit_and,
    Nat.testBit_xor, Nat.testBit_xor, Nat.testBit_xor, Nat.testBit_xor,
    Nat.testBit_two_pow_sub_one, Nat.testBit_two_pow_sub_one,
    Nat.testBit_two_pow_self, Nat.testBit_two_pow_of_ne hkne.symm]
  refine ⟨by simp, by simp [hik], by simp, by simp, by simp [hjk], by simp⟩

/-- Witness for C10: the claim instantiated at width 8, mask 0x46,
indices i = 2 and j = 5. -/
theorem mutators_frame_witness :
    ((0x46 : Nat) < 2 ^ 8 ∧ (0 : Int) ≤ 2 ∧ (2 : Int) < ((8 : Nat) : Int) ∧
      (0 : Int) ≤ 5 ∧ (5 : Int) < ((8 : Nat) : Int) ∧ (5 : Int) ≠ 2) ∧
    (test 8 (set_bit 8 0x46 2) 2 = true ∧
     test 8 (reset_bit 8 0x46 2) 2 = false ∧
     test 8 (flip_bit 8 0x46 2) 2 = !test 8 0x46 2 ∧
     test 8 (set_bit 8 0x46 2) 5 = test 8 0x46 5 ∧
     test 8 (reset_bit 8 0x46 2) 5 = test 8 0x46 5 ∧
     test 8 (flip_bit 8 0x46 2) 5 = test 8 0x46 5) :=
  ⟨⟨by decide, by decide, by decide, by decide, by decide, by decide⟩,
    mutators_frame 8 0x46 2 5 (by decide) (by decide) (by decide) (by decide)
      (by decide) (by decide)⟩

/-- Claim C4: most_significant_set_bit_index() returns a BitIndex whose
position is floor-log2(m) when m is nonzero (characterized by
2 ^ p ≤ m < 2 ^ (p + 1)), and the pre-begin sentinel -1 when m is 0. -/
theorem mssbi_spec (m : Nat) :
    (m = 0 → mssbi m = index_pre_begin) ∧
    (m ≠ 0 → 0 ≤ mssbi m ∧
      2 ^ (mssbi m).toNat ≤ m ∧ m < 2 ^ ((mssbi m).toNat + 1)) := by
  constructor
  · intro h; subst h; rfl
  · intro h
    have hm : mssbi m = (floor_log2 m : Int) := by
      unfold mssbi log2
      rw [if_neg h]
    obtain ⟨g1, g2⟩ := floor_log2_spec h
    rw [hm]
    exact ⟨by omega, g1, g2⟩

/-- Witness for C4: mssbi evaluated at 0 and at the nonzero mask 0x46
(whose most significant set bit is bit 6). -/
theorem mssbi_spec_witness :
    (mssbi 0 = index_pre_begin) ∧
    ((0x46 : Nat) ≠ 0 ∧ 0 ≤ mssbi 0x46 ∧
      2 ^ (mssbi 0x46).toNat ≤ 0x46 ∧ (0x46 : Nat) < 2 ^ ((mssbi 0x46).toNat + 1)) :=
  ⟨(mssbi_spec 0).1 rfl, by decide, (mssbi_spec 0x46).2 (by decide)⟩

/-- The int8_t conversion is the identity on the representable
range. -/
lemma int8_of_id {n : Int} (h1 : -128 ≤ n) (h2 : n ≤ 127) : int8_of n = n := by
  unfold int8_of
  omega

/-- Counterexample to C6 as stated: at width 128 with a zero mask,
lssbi stores static_cast(int8_t)(size()) = int8_of 128 = -128, not the
claimed end value N = 128. -/
theorem lssbi_end_cex : lssbi 128 0 = -128 ∧ lssbi 128 0 ≠ ((128 : Nat) : Int) := by
  decide

/-- Claim C6 (amended): for every nonzero mask m of width N ≤ 128,
converting the BitIndex returned by least_significant_set_bit_index()
back to a mask via index2mask yields exactly the mask of
least_significant_set_bit() (which is m & -m); for m = 0, lssbi stores
the int8_t conversion of N, which equals the end value N for the
widths up to 64 (at width 128 it wraps to -128). -/
theorem lssbi_roundtrip (N m : Nat) (hm : m < 2 ^ N) (hN : N ≤ 128) :
    (m ≠ 0 → index2mask N (lssbi N m) = lssb N m) ∧
    (m = 0 → lssbi N m = int8_of (N : Int)) ∧
    (m = 0 → N ≤ 64 → lssbi N m = (N : Int)) := by
  refine ⟨?_, ?_, ?_⟩
  · intro h
    have hc : ctz m < N := ctz_lt_of_lt h hm
    have hL : lssbi N m = (ctz m : Int) := by
      unfold lssbi
      rw [if_pos h, int8_of_id (by omega) (by omega)]
    rw [hL, index2mask_eq (by omega) (by omega)]
    have ht : ((ctz m : Int)).toNat = ctz m := rfl
    rw [ht, lssb_eq_two_pow_ctz h hm]
  · intro h
    subst h
    unfold lssbi
    rw [if_neg (by simp)]
  · intro h hN64
    subst h
    unfold lssbi
    rw [if_neg (by simp), int8_of_id (by omega) (by omega)]

/-- Witness for C6: the round trip at width 8, mask 0x46 (lowest set
bit 1, lssb mask 2), and the zero mask at width 8. -/
theorem lssbi_roundtrip_witness :
    ((0x46 : Nat) < 2 ^ 8 ∧ (8 : Nat) ≤ 128 ∧ (0x46 : Nat) ≠ 0 ∧
      index2mask 8 (lssbi 8 0x46) = lssb 8 0x46) ∧
    (lssbi 8 0 = int8_of ((8 : Nat) : Int) ∧ lssbi 8 0 = ((8 : Nat) : Int)) :=
  ⟨⟨by decide, by decide, by decide,
      (lssbi_roundtrip 8 0x46 (by decide) (by decide)).1 (by decide)⟩,
    (lssbi_roundtrip 8 0 (by decide) (by decide)).2.1 rfl,
    (lssbi_roundtrip 8 0 (by decide) (by decide)).2.2 rfl (by decide)⟩

/-- Claim C7: the int8_t storage of IndexPOD::m_index holds every
logical position in {-1} ∪ [0, N] for the widths 8, 16, 32 and 64, and
index_end stores N there; but at width N = 128 the initializer
8 * sizeof(T) = 128 does not fit int8_t: under modular conversion it
wraps to -128, contradicting the code's own documentation that N may
be 128 and that the value N means one-past-the-end. -/
theorem index_end_int8 :
    (index_end 8 = 8 ∧ index_end 16 = 16 ∧ index_end 32 = 32 ∧ index_end 64 = 64) ∧
    (∀ p : Int, -1 ≤ p → p ≤ 64 → int8_of p = p) ∧
    (index_end 128 = -128 ∧ index_end 128 ≠ 128) := by
  refine ⟨by decide, ?_, by decide⟩
  intro p h1 h2
  unfold int8_of
  omega

/-- Witness for C7: the storable-position part applied at position 33. -/
theorem index_end_int8_witness :
    ((-1 : Int) ≤ 33 ∧ (33 : Int) ≤ 64) ∧ int8_of 33 = 33 :=
  ⟨⟨by decide, by decide⟩, index_end_int8.2.1 33 (by decide) (by decide)⟩

/-- The power-of-two test of the modelled primitive characterizes the
powers of two. -/
lemma is_power_of_two_iff (m : Nat) : is_power_of_two m = true ↔ ∃ k, m = 2 ^ k := by
  unfold is_power_of_two
  rw [Bool.and_eq_true, bne_iff_ne, beq_iff_eq]
  constructor
  · intro ⟨h0, h1⟩
    exact ⟨ctz m, eq_two_pow_of_iter_succ_zero h0 (show iter_succ m = 0 from h1)⟩
  · intro ⟨k, hk⟩
    subst hk
    refine ⟨(Nat.two_pow_pos k).ne', ?_⟩
    apply Nat.eq_of_testBit_eq
    intro j
    rw [Nat.testBit_and, Nat.testBit_two_pow, Nat.testBit_two_pow_sub_one, Nat.zero_testBit]
    by_cases h : k = j <;> simp [h]

/-- Claim C8 (code bug in all()): none() iff count() = 0,
any() = !none(), and is_single_bit() iff count() = 1 (the power-of-two
test) all hold; all() iff count() = N holds for the widths above 16,
but for the 8- and 16-bit widths the integral promotion in !~m_bitmask
makes all() constantly false — in particular at width 8 and mask 0xFF,
all() is false although count() = 8 = N. -/
theorem query_consistency (N m : Nat) (hm : m < 2 ^ N) :
    (16 < N → (all N m = true ↔ count m = N)) ∧
    (N ≤ 16 → all N m = false) ∧
    (all 8 0xFF = false ∧ count 0xFF = 8) ∧
    (none m = true ↔ count m = 0) ∧
    (any m = !none m) ∧
    (is_single_bit m = true ↔ count m = 1) ∧
    (is_single_bit m = true ↔ (m ≠ 0 ∧ m &&& (m - 1) = 0)) := by
  refine ⟨?_, ?_, by decide, ?_, ?_, ?_, ?_⟩
  · intro h16
    unfold all count
    rw [if_neg (by omega), beq_iff_eq, Nat.xor_eq_zero, popcount_eq_iff_all hm]
    exact eq_comm
  · intro h16
    unfold all
    rw [if_pos h16, beq_eq_false_iff_ne]
    omega
  · unfold none count
    rw [beq_iff_eq]
    exact (popcount_eq_zero m).symm
  · rfl
  · unfold is_single_bit count
    rw [popcount_eq_one]
    exact is_power_of_two_iff m
  · unfold is_single_bit is_power_of_two
    rw [Bool.and_eq_true, bne_iff_ne, beq_iff_eq]

/-- Witness for C8: the consistency properties at width 32, mask 0x40
(a width where the complement is not promoted). -/
theorem query_consistency_witness :
    ((0x40 : Nat) < 2 ^ 32) ∧
    ((16 < 32 → (all 32 0x40 = true ↔ count 0x40 = 32)) ∧
     (32 ≤ 16 → all 32 0x40 = false) ∧
     (all 8 0xFF = false ∧ count 0xFF = 8) ∧
     (none 0x40 = true ↔ count 0x40 = 0) ∧
     (any 0x40 = !none 0x40) ∧
     (is_single_bit 0x40 = true ↔ count 0x40 = 1) ∧
     (is_single_bit 0x40 = true ↔ ((0x40 : Nat) ≠ 0 ∧ (0x40 : Nat) &&& (0x40 - 1) = 0))) :=
  ⟨by decide, query_consistency 32 0x40 (by decide)⟩

/-- Claim C1: next_bit_in(m) on an Index at pre-begin (-1) or at a
valid position p moves the index to the smallest set-bit position of m
strictly above p (and below N), or to end (N) if there is none; over
mask 0b01000110 with N = 8, successive calls from pre-begin visit
1, 2, 6 and then end. -/
theorem next_bit_in_spec :
    (∀ (N m : Nat) (p : Int), m < 2 ^ N → -1 ≤ p → p < (N : Int) →
      ((next_bit_in N m p = (N : Int) ∧
          ∀ j : Nat, p < (j : Int) → j < N → Nat.testBit m j = false) ∨
        (p < next_bit_in N m p ∧ next_bit_in N m p < (N : Int) ∧
          Nat.testBit m (next_bit_in N m p).toNat = true ∧
          ∀ j : Nat, p < (j : Int) → (j : Int) < next_bit_in N m p →
            Nat.testBit m j = false))) ∧
    (next_bit_in 8 0x46 (-1) = 1 ∧ next_bit_in 8 0x46 1 = 2 ∧
      next_bit_in 8 0x46 2 = 6 ∧ next_bit_in 8 0x46 6 = 8) := by
  constructor
  · intro N m p hm hp1 hp2
    by_cases hiN : p + 1 = (N : Int)
    · left
      have hr : next_bit_in N m p = (N : Int) := by
        unfold next_bit_in
        rw [if_neg (by omega : ¬(p + 1 ≠ (N : Int)))]
        exact hiN
      refine ⟨hr, fun j hj1 hj2 => absurd hj2 (by omega)⟩
    · have hi0 : (0 : Int) ≤ p + 1 := by omega
      have hiNlt : p + 1 < (N : Int) := by omega
      have hk : ((p + 1).toNat : Int) = p + 1 := by omega
      have hkN : (p + 1).toNat < N := by omega
      have hsh : m >>> (p + 1).toNat = m / 2 ^ (p + 1).toNat :=
        Nat.shiftRight_eq_div_pow m (p + 1).toNat
      by_cases hz : m >>> (p + 1).toNat = 0
      · left
        have hr : next_bit_in N m p = (N : Int) := by
          unfold next_bit_in
          rw [if_pos hiN, if_pos hz]
        refine ⟨hr, fun j hj1 hj2 => ?_⟩
        have hmk : m < 2 ^ (p + 1).toNat := by
          rw [hsh] at hz
          by_contra hcon
          push_neg at hcon
          have := Nat.div_pos hcon (Nat.two_pow_pos (p + 1).toNat)
          omega
        exact Nat.testBit_lt_two_pow
          (lt_of_lt_of_le hmk (Nat.pow_le_pow_right (by omega) (by omega)))
      · right
        have hr : next_bit_in N m p = (p + 1) + (ctz (m >>> (p + 1).toNat) : Int) := by
          unfold next_bit_in
          rw [if_pos hiN, if_neg hz]
        obtain ⟨g1, g2⟩ := ctz_spec (m >>> (p + 1).toNat) hz
        have hbit : ∀ j, Nat.testBit (m >>> (p + 1).toNat) j =
            Nat.testBit m ((p + 1).toNat + j) :=
          fun j => Nat.testBit_shiftRight m
        have hge := Nat.testBit_implies_ge g1
        have hsh_lt : m >>> (p + 1).toNat < 2 ^ (N - (p + 1).toNat) := by
          rw [hsh]
          apply Nat.div_lt_of_lt_mul
          have hpw : (2 : Nat) ^ (N - (p + 1).toNat) * 2 ^ (p + 1).toNat = 2 ^ N := by
            rw [← pow_add]
            congr 1
            omega
          have hpw' : (2 : Nat) ^ (p + 1).toNat * 2 ^ (N - (p + 1).toNat) = 2 ^ N := by
            rw [Nat.mul_comm]
            exact hpw
          omega
        have hcN : ctz (m >>> (p + 1).toNat) < N - (p + 1).toNat := by
          by_contra hcon
          push_neg at hcon
          have : (2 : Nat) ^ (N - (p + 1).toNat) ≤ 2 ^ ctz (m >>> (p + 1).toNat) :=
            Nat.pow_le_pow_right (by omega) hcon
          omega
        have htn : (next_bit_in N m p).toNat = (p + 1).toNat + ctz (m >>> (p + 1).toNat) := by
          rw [hr]; omega
        refine ⟨by rw [hr]; omega, by rw [hr]; omega, ?_, ?_⟩
        · rw [htn, ← hbit]
          exact g1
        · intro j hj1 hj2
          rw [hr] at hj2
          have hjk : (p + 1).toNat ≤ j := by omega
          have hjc : j - (p + 1).toNat < ctz (m >>> (p + 1).toNat) := by omega
          have hres := g2 (j - (p + 1).toNat) hjc
          rw [hbit (j - (p + 1).toNat), Nat.add_sub_cancel' hjk] at hres
          exact hres
  · exact ⟨by decide, by decide, by decide, by decide⟩

/-- Witness for C1: the characterization applied from pre-begin over
mask 0x46 at width 8. -/
theorem next_bit_in_spec_witness :
    ((0x46 : Nat) < 2 ^ 8 ∧ (-1 : Int) ≤ -1 ∧ (-1 : Int) < ((8 : Nat) : Int)) ∧
    ((next_bit_in 8 0x46 (-1) = ((8 : Nat) : Int) ∧
        ∀ j : Nat, (-1 : Int) < (j : Int) → j < 8 → Nat.testBit 0x46 j = false) ∨
      ((-1 : Int) < next_bit_in 8 0x46 (-1) ∧
        next_bit_in 8 0x46 (-1) < ((8 : Nat) : Int) ∧
        Nat.testBit 0x46 (next_bit_in 8 0x46 (-1)).toNat = true ∧
        ∀ j : Nat, (-1 : Int) < (j : Int) → (j : Int) < next_bit_in 8 0x46 (-1) →
          Nat.testBit 0x46 j = false)) :=
  ⟨⟨by decide, by decide, by decide⟩,
    next_bit_in_spec.1 8 0x46 (-1) (by decide) (by decide) (by decide)⟩

/-- Counterexample to C2 as stated: the claim includes position 0,
where the shift amount N - 0 equals the width; for the widths of at
least 32 bits that shift is undefined in C++ (and the code's own
comment, with may_call_prev_bit_in, forbids the call), so at width 32,
mask 1, position 0 the call does not produce pre-begin. -/
theorem prev_bit_in_claim_cex :
    prev_bit_in 32 1 0 = Option.none ∧
      prev_bit_in 32 1 0 ≠ Option.some index_pre_begin := by
  decide

/-- Claim C2 (amended): prev_bit_in(m) on an Index at a position p in
(0, N] — position strictly above index_begin, exactly the calls
may_call_prev_bit_in permits — moves the index to the largest set-bit
position of m strictly below p, or to pre-begin (-1) if there is none;
over mask 0b01100010 with N = 8, successive calls from end visit
6, 5, 1 and then pre-begin.  At position 0 the shift amount equals the
width and the call is outside the code's documented precondition
(undefined for widths of at least 32 bits). -/
theorem prev_bit_in_spec :
    (∀ (N m : Nat) (p : Int), m < 2 ^ N → 0 < p → p ≤ (N : Int) →
      ((prev_bit_in N m p = Option.some index_pre_begin ∧
          ∀ j : Nat, (j : Int) < p → Nat.testBit m j = false) ∨
        (∃ r : Int, prev_bit_in N m p = Option.some r ∧ 0 ≤ r ∧ r < p ∧
          Nat.testBit m r.toNat = true ∧
          ∀ j : Nat, r < (j : Int) → (j : Int) < p →
            Nat.testBit m j = false))) ∧
    (prev_bit_in 8 0x62 8 = Option.some 6 ∧ prev_bit_in 8 0x62 6 = Option.some 5 ∧
      prev_bit_in 8 0x62 5 = Option.some 1 ∧
      prev_bit_in 8 0x62 1 = Option.some index_pre_begin) := by
  constructor
  · intro N m p hm hp1 hp2
    have hs : (((N : Int) - p).toNat : Int) = (N : Int) - p := by omega
    have hsN : ((N : Int) - p).toNat < N := by omega
    have hshl : shl_width N m ((N : Int) - p).toNat =
        Option.some ((m <<< ((N : Int) - p).toNat) % 2 ^ N) := by
      unfold shl_width
      rw [if_pos (Or.inr hsN)]
    have hred : prev_bit_in N m p =
        (if (m <<< ((N : Int) - p).toNat) % 2 ^ N = 0 then Option.some index_pre_begin
         else Option.some
           (p - ((clz N ((m <<< ((N : Int) - p).toNat) % 2 ^ N) : Int) + 1))) := by
      unfold prev_bit_in
      rw [hshl]
    by_cases hz : (m <<< ((N : Int) - p).toNat) % 2 ^ N = 0
    · left
      have hr : prev_bit_in N m p = Option.some index_pre_begin := by
        rw [hred, if_pos hz]
      refine ⟨hr, fun j hj => ?_⟩
      by_contra hcon
      rw [Bool.not_eq_false] at hcon
      have d1 : j + ((N : Int) - p).toNat < N := by omega
      have d2 : ((N : Int) - p).toNat ≤ j + ((N : Int) - p).toNat := by omega
      have h1 : Nat.testBit ((m <<< ((N : Int) - p).toNat) % 2 ^ N)
          (j + ((N : Int) - p).toNat) = true := by
        rw [Nat.testBit_mod_two_pow, Nat.testBit_shiftLeft, Nat.add_sub_cancel]
        simp [d1, d2, hcon]
      rw [hz, Nat.zero_testBit] at h1
      exact absurd h1 (by simp)
    · right
      have hmask_lt : (m <<< ((N : Int) - p).toNat) % 2 ^ N < 2 ^ N :=
        Nat.mod_lt _ (Nat.two_pow_pos N)
      have hlN : floor_log2 ((m <<< ((N : Int) - p).toNat) % 2 ^ N) < N :=
        floor_log2_lt hz hmask_lt
      have hbit1 : Nat.testBit ((m <<< ((N : Int) - p).toNat) % 2 ^ N)
          (floor_log2 ((m <<< ((N : Int) - p).toNat) % 2 ^ N)) = true :=
        floor_log2_testBit hz
      rw [Nat.testBit_mod_two_pow, Nat.testBit_shiftLeft] at hbit1
      have hls : ((N : Int) - p).toNat ≤ floor_log2 ((m <<< ((N : Int) - p).toNat) % 2 ^ N) := by
        rcases Bool.and_eq_true .. |>.mp hbit1 with ⟨_, h2⟩
        rcases Bool.and_eq_true .. |>.mp h2 with ⟨h3, _⟩
        simpa using h3
      have hml : Nat.testBit m
          (floor_log2 ((m <<< ((N : Int) - p).toNat) % 2 ^ N) - ((N : Int) - p).toNat) = true := by
        rcases Bool.and_eq_true .. |>.mp hbit1 with ⟨_, h2⟩
        rcases Bool.and_eq_true .. |>.mp h2 with ⟨_, h4⟩
        exact h4
      have hclz : (clz N ((m <<< ((N : Int) - p).toNat) % 2 ^ N) : Int) =
          (N : Int) - 1 - (floor_log2 ((m <<< ((N : Int) - p).toNat) % 2 ^ N) : Int) := by
        unfold clz
        omega
      have hr : prev_bit_in N m p = Option.some
          ((floor_log2 ((m <<< ((N : Int) - p).toNat) % 2 ^ N) : Int) - ((N : Int) - p)) := by
        rw [hred, if_neg hz, hclz]
        congr 1
        omega
      refine ⟨(floor_log2 ((m <<< ((N : Int) - p).toNat) % 2 ^ N) : Int) - ((N : Int) - p),
        hr, by omega, by omega, ?_, ?_⟩
      · have htn : ((floor_log2 ((m <<< ((N : Int) - p).toNat) % 2 ^ N) : Int) -
            ((N : Int) - p)).toNat =
            floor_log2 ((m <<< ((N : Int) - p).toNat) % 2 ^ N) - ((N : Int) - p).toNat := by
          omega
        rw [htn]
        exact hml
      · intro j hj1 hj2
        have hjgt : floor_log2 ((m <<< ((N : Int) - p).toNat) % 2 ^ N) <
            j + ((N : Int) - p).toNat := by
          omega
        have h2 : Nat.testBit ((m <<< ((N : Int) - p).toNat) % 2 ^ N)
            (j + ((N : Int) - p).toNat) = false :=
          testBit_false_of_log2_lt hz hjgt
        rw [Nat.testBit_mod_two_pow, Nat.testBit_shiftLeft, Nat.add_sub_cancel] at h2
        have d1 : j + ((N : Int) - p).toNat < N := by omega
        have d2 : ((N : Int) - p).toNat ≤ j + ((N : Int) - p).toNat := by omega
        simpa [d1, d2] using h2
  · exact ⟨by decide, by decide, by decide, by decide⟩

/-- Witness for C2: the characterization applied from end (p = 8) over
mask 0x62 at width 8. -/
theorem prev_bit_in_spec_witness :
    ((0x62 : Nat) < 2 ^ 8 ∧ (0 : Int) < 8 ∧ (8 : Int) ≤ ((8 : Nat) : Int)) ∧
    ((prev_bit_in 8 0x62 8 = Option.some index_pre_begin ∧
        ∀ j : Nat, (j : Int) < 8 → Nat.testBit 0x62 j = false) ∨
      (∃ r : Int, prev_bit_in 8 0x62 8 = Option.some r ∧ 0 ≤ r ∧ r < 8 ∧
        Nat.testBit 0x62 r.toNat = true ∧
        ∀ j : Nat, r < (j : Int) → (j : Int) < 8 →
          Nat.testBit 0x62 j = false)) :=
  ⟨⟨by decide, by decide, by decide⟩,
    prev_bit_in_spec.1 8 0x62 8 (by decide) (by decide) (by decide)⟩

lemma to_string_aux_length (N m : Nat) (zero one : Char) :
    ∀ b, (to_string_aux N m zero one b).length = b := by
  intro b
  induction b with
  | zero => rfl
  | succ f ih => simp [to_string_aux, ih]

lemma to_string_aux_getD (N m : Nat) (zero one : Char) :
    ∀ b k, k < b →
      (to_string_aux N m zero one b).getD k zero =
        if test N m ((b : Int) - 1 - (k : Int)) then one else zero := by
  intro b
  induction b with
  | zero => intro k hk; omega
  | succ f ih =>
    intro k hk
    match k with
    | 0 =>
      show (if test N m ((f : Nat) : Int) then one else zero) = _
      have hidx : (((f + 1 : Nat) : Int) - 1 - ((0 : Nat) : Int)) = ((f : Nat) : Int) := by
        push_cast
        ring
      rw [hidx]
    | k' + 1 =>
      show (to_string_aux N m zero one f).getD k' zero = _
      rw [ih k' (by omega)]
      have hidx : (((f : Nat) : Int) - 1 - ((k' : Nat) : Int)) =
          (((f + 1 : Nat) : Int) - 1 - ((k' + 1 : Nat) : Int)) := by
        push_cast
        ring
      rw [hidx]

lemma to_string_aux_count (N m : Nat) :
    ∀ b, b ≤ N → (to_string_aux N m '0' '1' b).count '1' = popcount (m % 2 ^ b) := by
  intro b
  induction b with
  | zero =>
    intro _
    simp [to_string_aux, Nat.mod_one, popcount_zero]
  | succ f ih =>
    intro hb
    have hf : ((f : Nat) : Int) < (N : Int) := by omega
    have hmod : m % 2 ^ (f + 1) = 2 ^ f * (m / 2 ^ f % 2) + m % 2 ^ f := by
      have h1 : (2 : Nat) ^ (f + 1) = 2 ^ f * 2 := by ring
      rw [h1, Nat.mod_mul]
      ring
    have hcount : popcount (m % 2 ^ (f + 1)) =
        popcount (m / 2 ^ f % 2) + popcount (m % 2 ^ f) := by
      rw [hmod, popcount_two_pow_mul_add f _ _ (Nat.mod_lt _ (Nat.two_pow_pos f))]
    have htest : test N m ((f : Nat) : Int) = Nat.testBit m f :=
      test_eq_testBit (by omega) hf
    show List.count '1' ((if test N m ((f : Nat) : Int) then '1' else '0') ::
        to_string_aux N m '0' '1' f) = _
    rw [List.count_cons, ih (by omega), hcount, htest, Nat.testBit_to_div_mod]
    by_cases hbit : m / 2 ^ f % 2 = 1
    · rw [hbit]
      have h1 : popcount 1 = 1 := rfl
      rw [h1]
      simp [Nat.add_comm]
    · have hz : m / 2 ^ f % 2 = 0 := by omega
      rw [hz, popcount_zero]
      simp

/-- Claim C9: to_string(zeroChar, oneChar) produces exactly N
characters, the leftmost corresponding to bit N-1 and the rightmost to
bit 0, each character being oneChar if the bit is set and zeroChar
otherwise; with the default characters the number of ones equals
count(). -/
theorem to_string_spec (N m : Nat) (zero one : Char) (hm : m < 2 ^ N) :
    (to_string N m zero one).length = N ∧
    (∀ k : Nat, k < N →
      (to_string N m zero one).getD k zero =
        if test N m ((N : Int) - 1 - (k : Int)) then one else zero) ∧
    (to_string N m '0' '1').count '1' = count m := by
  refine ⟨to_string_aux_length N m zero one N, ?_, ?_⟩
  · intro k hk
    exact to_string_aux_getD N m zero one N k hk
  · have h := to_string_aux_count N m N (Nat.le_refl N)
    rw [Nat.mod_eq_of_lt hm] at h
    exact h

/-- Witness for C9: the string form of mask 0x46 at width 8 (which is
"01000110": char 1 from the left is bit 6, a set bit). -/
theorem to_string_spec_witness :
    ((0x46 : Nat) < 2 ^ 8) ∧
    ((to_string 8 0x46 '0' '1').length = 8 ∧
      (∀ k : Nat, k < 8 →
        (to_string 8 0x46 '0' '1').getD k '0' =
          if test 8 0x46 (((8 : Nat) : Int) - 1 - (k : Int)) then '1' else '0') ∧
      (to_string 8 0x46 '0' '1').count '1' = count 0x46) :=
  ⟨by decide, to_string_spec 8 0x46 '0' '1' (by decide)⟩

lemma iterListF_zero (N : Nat) : ∀ fuel, iterListF N fuel 0 = [] := by
  intro f; cases f <;> simp [iterListF]

lemma iter_succ_lt {m : Nat} (h : m ≠ 0) : iter_succ m < m := by
  have := Nat.and_le_right (n := m) (m := m - 1)
  unfold iter_succ
  omega

lemma iterListF_congr (N : Nat) : ∀ fuel fuel' m, m ≤ fuel → m ≤ fuel' →
    iterListF N fuel m = iterListF N fuel' m := by
  intro fuel
  induction fuel with
  | zero =>
    intro f' m h _
    have hm : m = 0 := by omega
    subst hm
    rw [iterListF_zero, iterListF_zero]
  | succ f ih =>
    intro f' m h h'
    by_cases h0 : m = 0
    · subst h0; rw [iterListF_zero, iterListF_zero]
    · cases f' with
      | zero => omega
      | succ f'' =>
        have hlt := iter_succ_lt h0
        simp only [iterListF, if_neg h0]
        congr 1
        exact ih f'' (iter_succ m) (by omega) (by omega)

lemma iterList_rec {N m : Nat} (h : m ≠ 0) :
    iterList N m = iter_deref N m :: iterList N (iter_succ m) := by
  obtain ⟨k, rfl⟩ : ∃ k, m = k + 1 := ⟨m - 1, by omega⟩
  show iterListF N (k + 1) (k + 1) = _
  simp only [iterListF, if_neg h]
  congr 1
  exact iterListF_congr N k (iter_succ (k + 1)) (iter_succ (k + 1))
    (by have := iter_succ_lt h; omega) (Nat.le_refl _)

lemma iterList_props (N : Nat) : ∀ m, m < 2 ^ N →
    (iterList N m).length = popcount m ∧
    (∀ x ∈ iterList N m, ∃ j, x = 2 ^ j ∧ Nat.testBit m j = true) ∧
    List.Pairwise (fun a b => ctz a < ctz b) (iterList N m) ∧
    (iterList N m).foldr (fun a b => a ||| b) 0 = m := by
  intro m
  induction m using Nat.strong_induction_on with
  | _ m ih =>
    intro hm
    by_cases h0 : m = 0
    · subst h0
      have hnil : iterList N 0 = [] := rfl
      refine ⟨rfl, ?_, ?_, rfl⟩
      · intro x hx
        rw [hnil] at hx
        exact absurd hx (List.not_mem_nil x)
      · rw [hnil]
        exact List.Pairwise.nil
    · have hrec := iterList_rec (N := N) h0
      have hd : iter_deref N m = 2 ^ ctz m := lssb_eq_two_pow_ctz h0 hm
      have hlt := iter_succ_lt h0
      obtain ⟨ih1, ih2, ih3, ih4⟩ := ih (iter_succ m) hlt (by omega)
      obtain ⟨g1, g2⟩ := ctz_spec m h0
      have hmem : ∀ x ∈ iterList N (iter_succ m),
          ∃ j, x = 2 ^ j ∧ ctz m < j ∧ Nat.testBit m j = true := by
        intro x hx
        obtain ⟨j, hj1, hj2⟩ := ih2 x hx
        have hb := testBit_iter_succ h0 j
        rw [hj2] at hb
        rcases Bool.and_eq_true .. |>.mp hb.symm with ⟨hb1, hb2⟩
        exact ⟨j, hj1, by simpa using hb1, hb2⟩
      refine ⟨?_, ?_, ?_, ?_⟩
      · rw [hrec]
        simp only [List.length_cons, ih1]
        have := popcount_iter_succ h0
        omega
      · rw [hrec]
        intro x hx
        rcases List.mem_cons.mp hx with hh | ht
        · exact ⟨ctz m, by rw [hh, hd], g1⟩
        · obtain ⟨j, hj1, _, hj3⟩ := hmem x ht
          exact ⟨j, hj1, hj3⟩
      · rw [hrec]
        rw [List.pairwise_cons]
        refine ⟨?_, ih3⟩
        intro b hb
        obtain ⟨j, hj1, hj2, _⟩ := hmem b hb
        rw [hd, ctz_two_pow, hj1, ctz_two_pow]
        exact hj2
      · rw [hrec]
        show iter_deref N m ||| (iterList N (iter_succ m)).foldr (fun a b => a ||| b) 0 = m
        rw [ih4, hd]
        apply Nat.eq_of_testBit_eq
        intro j
        rw [Nat.testBit_or, testBit_iter_succ h0 j, Nat.testBit_two_pow]
        rcases Nat.lt_trichotomy j (ctz m) with hlt' | he | hgt
        · rw [g2 j hlt']
          simp
          omega
        · subst he
          simp [g1]
        · have hne : ctz m ≠ j := by omega
          simp [hne, hgt]

/-- Claim C3: iterating from begin() to end() yields exactly count(m)
single-bit BitSet values in strictly increasing bit-position order
whose OR equals the original mask; incrementing clears the lowest set
bit of the residual mask (mask &= mask - 1, i.e. subtracts lssb);
iterator equality is residual-mask equality and the end iterator is
the one with residual mask 0. -/
theorem iteration_spec (N m : Nat) (hm : m < 2 ^ N) :
    (iterList N m).length = count m ∧
    (∀ x ∈ iterList N m, is_single_bit x = true) ∧
    List.Pairwise (fun a b => ctz a < ctz b) (iterList N m) ∧
    (iterList N m).foldr (fun a b => a ||| b) 0 = m ∧
    (m ≠ 0 → iter_succ m = m - lssb N m) ∧
    (∀ a b : Nat, iter_eq a b = true ↔ a = b) ∧
    iter_end = 0 := by
  obtain ⟨h1, h2, h3, h4⟩ := iterList_props N m hm
  refine ⟨h1, ?_, h3, h4, ?_, ?_, rfl⟩
  · intro x hx
    obtain ⟨j, hj1, _⟩ := h2 x hx
    exact (is_power_of_two_iff x).mpr ⟨j, hj1⟩
  · intro h0
    rw [iter_succ_eq_sub h0, lssb_eq_two_pow_ctz h0 hm]
  · intro a b
    exact beq_iff_eq

/-- Witness for C3: the iteration properties at width 8, mask 0x46
(three set bits: 1, 2, 6). -/
theorem iteration_spec_witness :
    ((0x46 : Nat) < 2 ^ 8) ∧
    ((iterList 8 0x46).length = count 0x46 ∧
      (∀ x ∈ iterList 8 0x46, is_single_bit x = true) ∧
      List.Pairwise (fun a b => ctz a < ctz b) (iterList 8 0x46) ∧
      (iterList 8 0x46).foldr (fun a b => a ||| b) 0 = 0x46 ∧
      ((0x46 : Nat) ≠ 0 → iter_succ 0x46 = 0x46 - lssb 8 0x46) ∧
      (∀ a b : Nat, iter_eq a b = true ↔ a = b) ∧
      iter_end = 0) :=
  ⟨by decide, iteration_spec 8 0x46 (by decide)⟩

end utils
